import Mathlib

/-!
# Verification of the vardel var-int (LEB128) codec

Shallow embedding of `src/lib.rs` (crate `vardel`): a variable-length
integer codec for unsigned integers of widths 16/32/64/128, with bulk
(slice) and delta (sorted slice) wrappers.

Modelling conventions:
* A machine integer of width `W` is a `Nat` together with the invariant
  `x < 2 ^ W` carried as a hypothesis where it matters.
* Byte buffers (`&mut [u8]`) are `List Nat`; each cell mutation is made
  explicit by returning the final buffer alongside the `Result`.
* Rust release-mode semantics are used for the two arithmetically unchecked
  operations that appear in the source: left-shift with an oversized shift
  amount masks the amount (`<<< (s % W)`; with `W` a power of two this is
  the hardware masking `s & (W-1)`), and unsigned subtraction wraps
  modulo `2 ^ W`.  A debug build panics at those two spots instead.
* The `Write` sink of the bulk encoders is instantiated at the faultless
  growable sink (`Vec<u8>`), i.e. an accumulating `List Nat`; its `write`
  never fails.
-/

namespace Vardel

/-- The crate's error enum.  `IoError(io::Error)` is modelled without its
payload: no theorem below inspects the wrapped I/O error. -/
inductive Error where
  | BufferTooSmall
  | InvalidVarInt
  | IoError
deriving DecidableEq, Repr

/-- `make_encoder!`: the body of `encode_u16/u32/u64/u128`.  The generated
code is literally identical for every width (only the parameter type
changes), so a single `Nat` function embeds all four.  Iterates over the
output buffer; at each cell writes `(x & 0x7f) as u8 | 0x80`, shifts `x`
right by 7, and when the remainder is zero clears the continuation bit of
the byte just written and returns `Ok(i+1)`.  Runs off the end of the
buffer: `Err(BufferTooSmall)`.  The returned list is the final state of the
`&mut [u8]` buffer. -/
def encode : Nat → List Nat → Except Error Nat × List Nat
  | _, [] => (Except.error Error.BufferTooSmall, [])
  | x, _b :: rest =>
    let byte := (x &&& 0x7f) ||| 0x80
    if x >>> 7 = 0 then
      (Except.ok 1, (byte &&& 0x7f) :: rest)
    else
      let r := encode (x >>> 7) rest
      (r.1.map (· + 1), byte :: r.2)

def encode_u16 : Nat → List Nat → Except Error Nat × List Nat := encode
def encode_u32 : Nat → List Nat → Except Error Nat × List Nat := encode
def encode_u64 : Nat → List Nat → Except Error Nat × List Nat := encode
def encode_u128 : Nat → List Nat → Except Error Nat × List Nat := encode

/-- The var-int byte string of `x`: low 7 bits first, continuation bit
(0x80) on every byte but the last.  Specification vocabulary (used to state
what the encoder writes). -/
def varintBytes (x : Nat) : List Nat :=
  if x < 128 then [x] else (x % 128 + 128) :: varintBytes (x / 128)
termination_by x
decreasing_by exact Nat.div_lt_self (by omega) (by omega)

/-- Length of the var-int encoding of `x` (number of base-128 digits).
Specification vocabulary. -/
def encLen (x : Nat) : Nat :=
  if x < 128 then 1 else encLen (x / 128) + 1
termination_by x
decreasing_by exact Nat.div_lt_self (by omega) (by omega)

/-- `make_decoder!`: the body of `decode_u16/u32/u64/u128`, parametrised by
the width `W` of the target type.  `x |= ((*b & 0x7f) as $ty) << (7*i)` is
a width-`W` operation: the embedding uses Rust release-mode semantics for
an oversized shift amount — the amount is reduced modulo `W` (for the
power-of-two widths of the crate, `s % W = s & (W-1)`) and the result is
truncated modulo `2 ^ W`.  A debug build instead panics on the oversized
shift amount, which is reachable exactly when the first value of the input
spans more than `ceil(W/7)` bytes. -/
def decodeCore (W : Nat) : Nat → Nat → List Nat → Except Error (Nat × List Nat)
  | _, _, [] => Except.error Error.InvalidVarInt
  | x, i, b :: rest =>
    let x' := x ||| (((b &&& 0x7f) <<< (7 * i % W)) % 2 ^ W)
    if b &&& 0x80 = 0 then Except.ok (x', rest)
    else decodeCore W x' (i + 1) rest

/-- `decode_uW bytes` with `W` the bit width of the target type. -/
def decode (W : Nat) (bytes : List Nat) : Except Error (Nat × List Nat) :=
  decodeCore W 0 0 bytes

def decode_u16 : List Nat → Except Error (Nat × List Nat) := decode 16
def decode_u32 : List Nat → Except Error (Nat × List Nat) := decode 32
def decode_u64 : List Nat → Except Error (Nat × List Nat) := decode 64
def decode_u128 : List Nat → Except Error (Nat × List Nat) := decode 128

/-- `make_slice_encoder!` with the `Write` sink instantiated at the
faultless growable sink `Vec<u8>`: the loop threads the 24-byte scratch
buffer, the running total of bytes written, and the sink contents.
`w.write(&buf[..n])` appends the first `n` scratch bytes to the sink and
never fails. -/
def encodeSliceLoop : List Nat → List Nat → Nat → List Nat → Except Error (Nat × List Nat)
  | [], _buf, total, sink => Except.ok (total, sink)
  | x :: xs, buf, total, sink =>
    match encode x buf with
    | (Except.ok n, buf') => encodeSliceLoop xs buf' (total + n) (sink ++ buf'.take n)
    | (Except.error e, _) => Except.error e

/-- `encode_uW_slice xs` into a fresh growable sink: returns the total byte
count and the sink contents.  The generated code is identical for all four
widths. -/
def encode_slice (xs : List Nat) : Except Error (Nat × List Nat) :=
  encodeSliceLoop xs (List.replicate 24 0) 0 []

def encode_u16_slice : List Nat → Except Error (Nat × List Nat) := encode_slice
def encode_u32_slice : List Nat → Except Error (Nat × List Nat) := encode_slice
def encode_u64_slice : List Nat → Except Error (Nat × List Nat) := encode_slice
def encode_u128_slice : List Nat → Except Error (Nat × List Nat) := encode_slice

/-- `make_delta_slice_encoder!` with the sink instantiated at `Vec<u8>`.
`let delta = *x - prev` is width-`W` unsigned subtraction; the embedding
uses the release-mode wrapping semantics `(x + 2^W - prev) % 2^W`, which
agrees with true subtraction whenever `prev ≤ x < 2 ^ W` (a debug build
panics on underflow instead). -/
def deltaEncodeSliceLoop (W : Nat) :
    List Nat → Nat → List Nat → Nat → List Nat → Except Error (Nat × List Nat)
  | [], _prev, _buf, total, sink => Except.ok (total, sink)
  | x :: xs, prev, buf, total, sink =>
    let delta := (x + 2 ^ W - prev) % 2 ^ W
    match encode delta buf with
    | (Except.ok n, buf') => deltaEncodeSliceLoop W xs x buf' (total + n) (sink ++ buf'.take n)
    | (Except.error e, _) => Except.error e

/-- `delta_encode_uW_slice xs` into a fresh growable sink. -/
def delta_encode_slice (W : Nat) (xs : List Nat) : Except Error (Nat × List Nat) :=
  deltaEncodeSliceLoop W xs 0 (List.replicate 24 0) 0 []

def delta_encode_u16_slice : List Nat → Except Error (Nat × List Nat) := delta_encode_slice 16
def delta_encode_u32_slice : List Nat → Except Error (Nat × List Nat) := delta_encode_slice 32
def delta_encode_u64_slice : List Nat → Except Error (Nat × List Nat) := delta_encode_slice 64
def delta_encode_u128_slice : List Nat → Except Error (Nat × List Nat) := delta_encode_slice 128

/-- `make_slice_decoder!`: `while !bytes.is_empty()` pop one var-int and
push the value. -/
def decodeSliceLoop (W : Nat) : List Nat → List Nat → Except Error (List Nat)
  | out, [] => Except.ok out
  | out, b :: bs =>
    match h : decodeCore W 0 0 (b :: bs) with
    | Except.ok (x, rest) => decodeSliceLoop W (out ++ [x]) rest
    | Except.error e => Except.error e
termination_by _ bytes => bytes.length
decreasing_by
  have key : ∀ (bytes : List Nat) (x i v : Nat) (rest : List Nat),
      decodeCore W x i bytes = Except.ok (v, rest) → rest.length < bytes.length := by
    intro bytes
    induction bytes with
    | nil =>
      intro x i v rest hk
      rw [decodeCore] at hk
      exact absurd hk (by simp)
    | cons c cs ih =>
      intro x i v rest hk
      rw [decodeCore] at hk
      by_cases hc : c &&& 0x80 = 0
      · rw [if_pos hc] at hk
        injection hk with h2
        injection h2 with h3 h4
        rw [← h4]
        simp
      · rw [if_neg hc] at hk
        have := ih _ _ _ _ hk
        simp only [List.length_cons]
        omega
  simpa using key _ _ _ _ _ h

/-- `decode_uW_slice bytes`. -/
def decode_slice (W : Nat) (bytes : List Nat) : Except Error (List Nat) :=
  decodeSliceLoop W [] bytes

def decode_u16_slice : List Nat → Except Error (List Nat) := decode_slice 16
def decode_u32_slice : List Nat → Except Error (List Nat) := decode_slice 32
def decode_u64_slice : List Nat → Except Error (List Nat) := decode_slice 64
def decode_u128_slice : List Nat → Except Error (List Nat) := decode_slice 128

/-- `make_delta_slice_decoder!`: like the slice decoder but `prev += delta`
(width-`W` wrapping addition) and `prev` is pushed. -/
def deltaDecodeSliceLoop (W : Nat) : List Nat → Nat → List Nat → Except Error (List Nat)
  | out, _prev, [] => Except.ok out
  | out, prev, b :: bs =>
    match h : decodeCore W 0 0 (b :: bs) with
    | Except.ok (delta, rest) =>
      deltaDecodeSliceLoop W (out ++ [(prev + delta) % 2 ^ W]) ((prev + delta) % 2 ^ W) rest
    | Except.error e => Except.error e
termination_by _ _ bytes => bytes.length
decreasing_by
  have key : ∀ (bytes : List Nat) (x i v : Nat) (rest : List Nat),
      decodeCore W x i bytes = Except.ok (v, rest) → rest.length < bytes.length := by
    intro bytes
    induction bytes with
    | nil =>
      intro x i v rest hk
      rw [decodeCore] at hk
      exact absurd hk (by simp)
    | cons c cs ih =>
      intro x i v rest hk
      rw [decodeCore] at hk
      by_cases hc : c &&& 0x80 = 0
      · rw [if_pos hc] at hk
        injection hk with h2
        injection h2 with h3 h4
        rw [← h4]
        simp
      · rw [if_neg hc] at hk
        have := ih _ _ _ _ hk
        simp only [List.length_cons]
        omega
  simpa using key _ _ _ _ _ h

/-- `delta_decode_uW_slice bytes`. -/
def delta_decode_slice (W : Nat) (bytes : List Nat) : Except Error (List Nat) :=
  deltaDecodeSliceLoop W [] 0 bytes

def delta_decode_u16_slice : List Nat → Except Error (List Nat) := delta_decode_slice 16
def delta_decode_u32_slice : List Nat → Except Error (List Nat) := delta_decode_slice 32
def delta_decode_u64_slice : List Nat → Except Error (List Nat) := delta_decode_slice 64
def delta_decode_u128_slice : List Nat → Except Error (List Nat) := delta_decode_slice 128

/-- The successive differences of `xs` starting from `prev` (true
subtraction; it agrees with the wrapping subtraction of the source under
the non-decreasing precondition).  Specification vocabulary. -/
def deltaList : Nat → List Nat → List Nat
  | _prev, [] => []
  | prev, x :: xs => (x - prev) :: deltaList x xs

/-- The number represented by a byte string read as 7-bit groups, least
significant first, ignoring continuation bits.  Specification
vocabulary. -/
def rawValue : List Nat → Nat
  | [] => 0
  | b :: bs => (b &&& 0x7f) + 128 * rawValue bs

/-- Modelled from the spec: the Scan/Search helper `contains` (spec §4.4)
is described in the specification but absent from `src/`.  Faithful to the
spec's words: run the same running-sum reconstruction as delta-decode,
short-circuiting with `true` the moment the accumulator equals the target,
and returning `false` when the bytes are exhausted, or when a decode step
fails, without a match. -/
def containsLoop (W target : Nat) : Nat → List Nat → Bool
  | _acc, [] => false
  | acc, b :: bs =>
    match h : decodeCore W 0 0 (b :: bs) with
    | Except.ok (delta, rest) =>
      if (acc + delta) % 2 ^ W = target then true
      else containsLoop W target ((acc + delta) % 2 ^ W) rest
    | Except.error _ => false
termination_by _ bytes => bytes.length
decreasing_by
  have key : ∀ (bytes : List Nat) (x i v : Nat) (rest : List Nat),
      decodeCore W x i bytes = Except.ok (v, rest) → rest.length < bytes.length := by
    intro bytes
    induction bytes with
    | nil =>
      intro x i v rest hk
      rw [decodeCore] at hk
      exact absurd hk (by simp)
    | cons c cs ih =>
      intro x i v rest hk
      rw [decodeCore] at hk
      by_cases hc : c &&& 0x80 = 0
      · rw [if_pos hc] at hk
        injection hk with h2
        injection h2 with h3 h4
        rw [← h4]
        simp
      · rw [if_neg hc] at hk
        have := ih _ _ _ _ hk
        simp only [List.length_cons]
        omega
  simpa using key _ _ _ _ _ h

/-- Modelled from the spec: `contains(target, bytes)`. -/
def contains (W target : Nat) (bytes : List Nat) : Bool :=
  containsLoop W target 0 bytes

/-- Modelled from the spec: the sequence of running-sum values ("the
running accumulator") produced by the delta reconstruction, cut off where
the input is exhausted or a decode step fails.  Specification
vocabulary used to state what `contains` searches. -/
def runningSums (W : Nat) : Nat → List Nat → List Nat
  | _acc, [] => []
  | acc, b :: bs =>
    match h : decodeCore W 0 0 (b :: bs) with
    | Except.ok (delta, rest) =>
      ((acc + delta) % 2 ^ W) :: runningSums W ((acc + delta) % 2 ^ W) rest
    | Except.error _ => []
termination_by _ bytes => bytes.length
decreasing_by
  have key : ∀ (bytes : List Nat) (x i v : Nat) (rest : List Nat),
      decodeCore W x i bytes = Except.ok (v, rest) → rest.length < bytes.length := by
    intro bytes
    induction bytes with
    | nil =>
      intro x i v rest hk
      rw [decodeCore] at hk
      exact absurd hk (by simp)
    | cons c cs ih =>
      intro x i v rest hk
      rw [decodeCore] at hk
      by_cases hc : c &&& 0x80 = 0
      · rw [if_pos hc] at hk
        injection hk with h2
        injection h2 with h3 h4
        rw [← h4]
        simp
      · rw [if_neg hc] at hk
        have := ih _ _ _ _ hk
        simp only [List.length_cons]
        omega
  simpa using key _ _ _ _ _ h

/-- The four widths instantiated by the crate's macros. -/
abbrev Widths (W : Nat) : Prop := W = 16 ∨ W = 32 ∨ W = 64 ∨ W = 128

/-! ## Theorems -/

theorem widths_bounds {W : Nat} (h : Widths W) : 1 ≤ W ∧ W ≤ 128 := by
  rcases h with h | h | h | h <;> subst h <;> omega

/-! ### Arithmetic helpers about the bit operations of the source -/

theorem and_127 (x : Nat) : x &&& 127 = x % 128 := by
  simpa using Nat.and_pow_two_sub_one_eq_mod x 7

theorem shiftRight_7 (x : Nat) : x >>> 7 = x / 128 := by
  simpa using Nat.shiftRight_eq_div_pow x 7

theorem lor_small {a : Nat} (m k : Nat) (h : a < 2 ^ k) :
    a ||| m * 2 ^ k = a + m * 2 ^ k := by
  have h2 := Nat.mul_add_lt_is_or h m
  rw [Nat.lor_comm, Nat.mul_comm m, ← h2]
  omega

theorem lor_128 {y : Nat} (h : y < 128) : y ||| 128 = y + 128 := by
  have := lor_small (a := y) 1 7 (by omega)
  simpa using this

theorem and_128_of_lt {y : Nat} (h : y < 128) : y &&& 128 = 0 := by
  have h2 : y &&& 2 ^ 7 = (y.testBit 7).toNat * 2 ^ 7 := Nat.and_two_pow y 7
  have h3 : y.testBit 7 = false := Nat.testBit_lt_two_pow (by omega)
  rw [h3] at h2
  simpa using h2

theorem add_128_and_128 {y : Nat} (h : y < 128) : (y + 128) &&& 128 = 128 := by
  have h2 : (y + 128) &&& 2 ^ 7 = ((y + 128).testBit 7).toNat * 2 ^ 7 :=
    Nat.and_two_pow (y + 128) 7
  have h3 : (y + 128).testBit 7 = true := by
    rw [Nat.testBit_to_div_mod]
    have h4 : (y + 128) / 2 ^ 7 = 1 := by omega
    rw [h4]
    decide
  rw [h3] at h2
  simpa using h2

/-! ### Unfolding equations for `encLen` and `varintBytes` -/

theorem encLen_small {x : Nat} (h : x < 128) : encLen x = 1 := by
  rw [encLen, if_pos h]

theorem encLen_large {x : Nat} (h : ¬ x < 128) : encLen x = encLen (x / 128) + 1 := by
  rw [encLen, if_neg h]

theorem varintBytes_small {x : Nat} (h : x < 128) : varintBytes x = [x] := by
  rw [varintBytes, if_pos h]

theorem varintBytes_large {x : Nat} (h : ¬ x < 128) :
    varintBytes x = (x % 128 + 128) :: varintBytes (x / 128) := by
  rw [varintBytes, if_neg h]

theorem encLen_pos (x : Nat) : 1 ≤ encLen x := by
  rw [encLen]
  split
  · omega
  · omega

theorem varintBytes_length (x : Nat) : (varintBytes x).length = encLen x := by
  induction x using Nat.strong_induction_on with
  | _ x ih =>
    by_cases h : x < 128
    · rw [varintBytes_small h, encLen_small h]
      rfl
    · rw [varintBytes_large h, encLen_large h, List.length_cons,
        ih (x / 128) (Nat.div_lt_self (by omega) (by omega))]

/-- Characterisation of a successful single-value encode: it consumes
`encLen x` cells, writes exactly `varintBytes x` there, and leaves the rest
of the buffer untouched. -/
theorem encode_ok {x : Nat} {buf : List Nat} (h : encLen x ≤ buf.length) :
    encode x buf = (Except.ok (encLen x), varintBytes x ++ buf.drop (encLen x)) := by
  induction buf generalizing x with
  | nil =>
    have := encLen_pos x
    simp at h
    omega
  | cons b rest ih =>
    by_cases hx : x < 128
    · have hx7 : x >>> 7 = 0 := by rw [shiftRight_7]; omega
      have hb : ((x &&& 0x7f) ||| 0x80) &&& 0x7f = x := by
        have h127 : x &&& 127 = x := by rw [and_127]; omega
        rw [h127, lor_128 hx, and_127]
        omega
      rw [encode, if_pos hx7, hb, encLen_small hx, varintBytes_small hx]
      rfl
    · have hx7 : ¬ x >>> 7 = 0 := by rw [shiftRight_7]; omega
      have hlen : encLen (x / 128) ≤ rest.length := by
        rw [encLen_large hx] at h
        simpa using Nat.le_of_succ_le_succ h
      have hrec := ih (x := x / 128) hlen
      have hbyte : (x &&& 0x7f) ||| 0x80 = x % 128 + 128 := by
        rw [and_127]
        exact lor_128 (Nat.mod_lt x (by omega))
      rw [encode, if_neg hx7, shiftRight_7, hrec, encLen_large hx, varintBytes_large hx]
      simp [hbyte, Except.map]

/-- A failing single-value encode: the buffer is too short. -/
theorem encode_err {x : Nat} {buf : List Nat} (h : buf.length < encLen x) :
    (encode x buf).1 = Except.error Error.BufferTooSmall := by
  induction buf generalizing x with
  | nil => rw [encode]
  | cons b rest ih =>
    by_cases hx : x < 128
    · rw [encLen_small hx] at h
      simp at h
    · have hx7 : ¬ x >>> 7 = 0 := by rw [shiftRight_7]; omega
      have hlen : rest.length < encLen (x / 128) := by
        rw [encLen_large hx] at h
        simpa using h
      rw [encode, if_neg hx7, shiftRight_7]
      simp [ih (x := x / 128) hlen, Except.map]

/-! ### Decoder lemmas -/

/-- A successful decode consumes at least one byte. -/
theorem decodeCore_ok_length {W : Nat} : ∀ {bytes : List Nat} {x i v rest},
    decodeCore W x i bytes = Except.ok (v, rest) → rest.length < bytes.length := by
  intro bytes
  induction bytes with
  | nil =>
    intro x i v rest h
    rw [decodeCore] at h
    exact absurd h (by simp)
  | cons b bs ih =>
    intro x i v rest h
    rw [decodeCore] at h
    by_cases hb : b &&& 0x80 = 0
    · rw [if_pos hb] at h
      injection h with h2
      injection h2 with h3 h4
      rw [← h4]
      simp
    · rw [if_neg hb] at h
      have := ih h
      simp only [List.length_cons]
      omega

/-- Main decode lemma: running the decoder on the var-int bytes of `x`
followed by anything else accumulates `x` shifted into position `7*i`,
provided every touched shift amount is in range and no truncation occurs. -/
theorem decodeCore_varint {W : Nat} (x : Nat) :
    ∀ i acc rest, 7 * i + 7 * (encLen x - 1) < W → acc < 2 ^ (7 * i) →
      acc + x * 2 ^ (7 * i) < 2 ^ W →
      decodeCore W acc i (varintBytes x ++ rest) =
        Except.ok (acc + x * 2 ^ (7 * i), rest) := by
  induction x using Nat.strong_induction_on with
  | _ x ih =>
    intro i acc rest hshift hacc hval
    by_cases hx : x < 128
    · have h1 : x &&& 127 = x := by rw [and_127]; omega
      have h2 : 7 * i % W = 7 * i := Nat.mod_eq_of_lt (by omega)
      have h3 : x <<< (7 * i) = x * 2 ^ (7 * i) := Nat.shiftLeft_eq x (7 * i)
      have h4 : x * 2 ^ (7 * i) % 2 ^ W = x * 2 ^ (7 * i) :=
        Nat.mod_eq_of_lt (by omega)
      have h5 : x &&& 128 = 0 := and_128_of_lt hx
      rw [varintBytes_small hx, List.cons_append, decodeCore]
      simp only [h1, h2, h3, h4]
      rw [if_pos h5, lor_small x (7 * i) hacc]
      simp
    · have he := encLen_pos (x / 128)
      have hplus : encLen x = encLen (x / 128) + 1 := encLen_large hx
      have hmod : x % 128 < 128 := Nat.mod_lt x (by omega)
      have h1 : (x % 128 + 128) &&& 127 = x % 128 := by
        rw [and_127]; omega
      have h2 : 7 * i % W = 7 * i := Nat.mod_eq_of_lt (by omega)
      have h3 : (x % 128) <<< (7 * i) = x % 128 * 2 ^ (7 * i) :=
        Nat.shiftLeft_eq (x % 128) (7 * i)
      have hxle : x % 128 * 2 ^ (7 * i) ≤ x * 2 ^ (7 * i) :=
        Nat.mul_le_mul_right _ (Nat.mod_le x 128)
      have h4 : x % 128 * 2 ^ (7 * i) % 2 ^ W = x % 128 * 2 ^ (7 * i) :=
        Nat.mod_eq_of_lt (by omega)
      have h5 : (x % 128 + 128) &&& 128 = 128 := add_128_and_128 hmod
      have hpow : 2 ^ (7 * (i + 1)) = 2 ^ (7 * i) * 128 := by
        have : 7 * (i + 1) = 7 * i + 7 := by omega
        rw [this, pow_add]
        norm_num
      have hacc' : acc + x % 128 * 2 ^ (7 * i) < 2 ^ (7 * (i + 1)) := by
        rw [hpow]
        have : x % 128 * 2 ^ (7 * i) ≤ 127 * 2 ^ (7 * i) :=
          Nat.mul_le_mul_right _ (by omega)
        have hpos : 0 < 2 ^ (7 * i) := Nat.pos_pow_of_pos _ (by omega)
        nlinarith
      have hkey : acc + x % 128 * 2 ^ (7 * i) + x / 128 * 2 ^ (7 * (i + 1)) =
          acc + x * 2 ^ (7 * i) := by
        rw [hpow]
        have hsplit : 128 * (x / 128) + x % 128 = x := Nat.div_add_mod x 128
        have : x % 128 * 2 ^ (7 * i) + x / 128 * (2 ^ (7 * i) * 128) =
            x * 2 ^ (7 * i) := by
          conv_rhs => rw [← hsplit]
          ring
        omega
      have hrec := ih (x / 128) (Nat.div_lt_self (by omega) (by omega))
        (i + 1) (acc + x % 128 * 2 ^ (7 * i)) rest
        (by omega) hacc' (by omega)
      rw [varintBytes_large hx, List.cons_append, decodeCore]
      simp only [h1, h2, h3, h4]
      rw [if_neg (by rw [h5]; omega), lor_small (x % 128) (7 * i) hacc, hrec, hkey]

/-! ### Width bounds: a value below `2 ^ W` encodes in at most `⌈W/7⌉` bytes -/

theorem encLen_le_of_lt_pow : ∀ k x : Nat, 1 ≤ k → x < 128 ^ k → encLen x ≤ k := by
  intro k
  induction k with
  | zero => omega
  | succ k ih =>
    intro x _ h
    by_cases hx : x < 128
    · rw [encLen_small hx]
      omega
    · have hk : 1 ≤ k := by
        by_contra hk0
        have : k = 0 := by omega
        subst this
        simp at h
        omega
      have hdiv : x / 128 < 128 ^ k := by
        rw [Nat.div_lt_iff_lt_mul (by omega)]
        calc x < 128 ^ (k + 1) := h
          _ = 128 ^ k * 128 := by rw [pow_succ]
      rw [encLen_large hx]
      have := ih (x / 128) hk hdiv
      omega

theorem encLen_le_width {W x : Nat} (hW : 1 ≤ W) (h : x < 2 ^ W) :
    encLen x ≤ (W + 6) / 7 := by
  have hk : 1 ≤ (W + 6) / 7 := by omega
  have hW7 : W ≤ 7 * ((W + 6) / 7) := by omega
  have hpow : (128 : Nat) ^ ((W + 6) / 7) = 2 ^ (7 * ((W + 6) / 7)) := by
    rw [show (128 : Nat) = 2 ^ 7 by norm_num, ← pow_mul]
  have hx : x < 128 ^ ((W + 6) / 7) := by
    calc x < 2 ^ W := h
      _ ≤ 2 ^ (7 * ((W + 6) / 7)) := Nat.pow_le_pow_right (by omega) hW7
      _ = 128 ^ ((W + 6) / 7) := hpow.symm
  exact encLen_le_of_lt_pow _ x hk hx

theorem shift_bound {W x : Nat} (hW : 1 ≤ W) (h : x < 2 ^ W) :
    7 * (encLen x - 1) < W := by
  have h1 := encLen_le_width hW h
  have h2 := encLen_pos x
  have h3 : 7 * ((W + 6) / 7) ≤ W + 6 := by omega
  omega

/-- Decoding the var-int bytes of an in-range value, followed by anything
else, returns the value and the remainder. -/
theorem decode_varint {W x : Nat} (rest : List Nat) (hW : 1 ≤ W) (hx : x < 2 ^ W) :
    decode W (varintBytes x ++ rest) = Except.ok (x, rest) := by
  have h1 : 7 * 0 + 7 * (encLen x - 1) < W := by
    simpa using shift_bound hW hx
  have h2 := decodeCore_varint x 0 0 rest h1 (by simp) (by simpa using hx)
  simpa [decode] using h2

/-! ### Characterisation of the slice loops -/

theorem varintBytes_ne_nil (x : Nat) : varintBytes x ≠ [] := by
  by_cases hx : x < 128
  · rw [varintBytes_small hx]
    simp
  · rw [varintBytes_large hx]
    simp

theorem decodeSliceLoop_step {W x : Nat} {out rest : List Nat} {v : Nat} {bs : List Nat}
    (h : decodeCore W 0 0 (x :: bs) = Except.ok (v, rest)) :
    decodeSliceLoop W out (x :: bs) = decodeSliceLoop W (out ++ [v]) rest := by
  rw [decodeSliceLoop]
  split
  · rename_i v' rest' hmatch
    rw [h] at hmatch
    injection hmatch with hm
    injection hm with hv hr
    rw [hv, hr]
  · rename_i e hmatch
    rw [h] at hmatch
    exact absurd hmatch (by simp)

theorem deltaDecodeSliceLoop_step {W x prev : Nat} {out rest : List Nat} {v : Nat}
    {bs : List Nat}
    (h : decodeCore W 0 0 (x :: bs) = Except.ok (v, rest)) :
    deltaDecodeSliceLoop W out prev (x :: bs) =
      deltaDecodeSliceLoop W (out ++ [(prev + v) % 2 ^ W]) ((prev + v) % 2 ^ W) rest := by
  rw [deltaDecodeSliceLoop]
  split
  · rename_i v' rest' hmatch
    rw [h] at hmatch
    injection hmatch with hm
    injection hm with hv hr
    rw [hv, hr]
  · rename_i e hmatch
    rw [h] at hmatch
    exact absurd hmatch (by simp)

/-- Bulk encode succeeds whenever every element fits the 24-byte scratch
buffer, writing the concatenation of the per-value encodings. -/
theorem encodeSliceLoop_ok :
    ∀ (xs : List Nat) (buf : List Nat) (total : Nat) (sink : List Nat),
      buf.length = 24 → (∀ x ∈ xs, encLen x ≤ 24) →
      encodeSliceLoop xs buf total sink =
        Except.ok (total + (xs.map encLen).sum, sink ++ (xs.map varintBytes).flatten) := by
  intro xs
  induction xs with
  | nil =>
    intro buf total sink hbuf h
    simp [encodeSliceLoop]
  | cons x xs ih =>
    intro buf total sink hbuf h
    have hx : encLen x ≤ buf.length := by
      rw [hbuf]
      exact h x (by simp)
    rw [encodeSliceLoop, encode_ok hx]
    dsimp only
    have hlen' : (varintBytes x ++ buf.drop (encLen x)).length = 24 := by
      simp [varintBytes_length]
      omega
    have htake : (varintBytes x ++ buf.drop (encLen x)).take (encLen x) = varintBytes x :=
      List.take_left' (varintBytes_length x)
    rw [htake, ih _ _ _ hlen' (fun y hy => h y (by simp [hy]))]
    simp [List.flatten_cons]
    omega

/-- Bulk decode of a concatenation of var-int encodings of in-range values
recovers the values in order. -/
theorem decodeSliceLoop_varints {W : Nat} (hW : 1 ≤ W) :
    ∀ (xs out : List Nat), (∀ x ∈ xs, x < 2 ^ W) →
      decodeSliceLoop W out (xs.map varintBytes).flatten = Except.ok (out ++ xs) := by
  intro xs
  induction xs with
  | nil =>
    intro out h
    simp [decodeSliceLoop]
  | cons x xs ih =>
    intro out h
    have hx := h x (by simp)
    have hdec := decode_varint (W := W) ((xs.map varintBytes).flatten) hW hx
    rw [decode] at hdec
    obtain ⟨b, bs, hsplit⟩ : ∃ b bs,
        varintBytes x ++ (xs.map varintBytes).flatten = b :: bs := by
      cases hvb : varintBytes x with
      | nil => exact absurd hvb (varintBytes_ne_nil x)
      | cons hd tl => exact ⟨hd, tl ++ (xs.map varintBytes).flatten, by simp [hvb]⟩
    have hflat : ((x :: xs).map varintBytes).flatten = b :: bs := by
      rw [List.map_cons, List.flatten_cons, hsplit]
    rw [hflat]
    rw [hsplit] at hdec
    rw [decodeSliceLoop_step hdec, ih (out ++ [x]) (fun y hy => h y (by simp [hy]))]
    simp

/-! ### Delta codec characterisation -/

theorem wrap_sub_eq {W prev x : Nat} (h1 : prev ≤ x) (h2 : x < 2 ^ W) :
    (x + 2 ^ W - prev) % 2 ^ W = x - prev := by
  have hrw : x + 2 ^ W - prev = (x - prev) + 2 ^ W := by omega
  rw [hrw, Nat.add_mod_right]
  exact Nat.mod_eq_of_lt (by omega)

theorem encLen_le_24 {W x : Nat} (hW1 : 1 ≤ W) (hW2 : W ≤ 128) (h : x < 2 ^ W) :
    encLen x ≤ 24 := by
  have h1 := encLen_le_width hW1 h
  omega

/-- Delta encode succeeds on a non-decreasing in-range sequence, writing
the concatenated var-int encodings of the successive differences. -/
theorem deltaEncodeSliceLoop_ok {W : Nat} (hW1 : 1 ≤ W) (hW2 : W ≤ 128) :
    ∀ (xs : List Nat) (prev : Nat) (buf : List Nat) (total : Nat) (sink : List Nat),
      buf.length = 24 → List.Chain (· ≤ ·) prev xs → (∀ x ∈ xs, x < 2 ^ W) →
      deltaEncodeSliceLoop W xs prev buf total sink =
        Except.ok (total + ((deltaList prev xs).map encLen).sum,
          sink ++ ((deltaList prev xs).map varintBytes).flatten) := by
  intro xs
  induction xs with
  | nil =>
    intro prev buf total sink hbuf hchain h
    simp [deltaEncodeSliceLoop, deltaList]
  | cons x xs ih =>
    intro prev buf total sink hbuf hchain h
    cases hchain with
    | cons h1 h2 =>
      have hx : x < 2 ^ W := h x (by simp)
      have hdelta : (x + 2 ^ W - prev) % 2 ^ W = x - prev := wrap_sub_eq h1 hx
      have hfit : encLen (x - prev) ≤ buf.length := by
        rw [hbuf]
        exact encLen_le_24 hW1 hW2 (by omega)
      rw [deltaEncodeSliceLoop]
      rw [hdelta, encode_ok hfit]
      dsimp only
      have hlen' : (varintBytes (x - prev) ++ buf.drop (encLen (x - prev))).length = 24 := by
        simp [varintBytes_length]
        omega
      have htake : (varintBytes (x - prev) ++ buf.drop (encLen (x - prev))).take
          (encLen (x - prev)) = varintBytes (x - prev) :=
        List.take_left' (varintBytes_length (x - prev))
      rw [htake, ih _ _ _ _ hlen' h2 (fun y hy => h y (by simp [hy]))]
      simp [deltaList, List.flatten_cons]
      omega

/-- Delta decode of the concatenated var-int difference encodings
reconstructs the original sequence by running sums. -/
theorem deltaDecodeSliceLoop_varints {W : Nat} (hW : 1 ≤ W) :
    ∀ (xs : List Nat) (prev : Nat) (out : List Nat),
      List.Chain (· ≤ ·) prev xs → (∀ x ∈ xs, x < 2 ^ W) → prev < 2 ^ W →
      deltaDecodeSliceLoop W out prev ((deltaList prev xs).map varintBytes).flatten =
        Except.ok (out ++ xs) := by
  intro xs
  induction xs with
  | nil =>
    intro prev out hchain h hprev
    simp [deltaDecodeSliceLoop, deltaList]
  | cons x xs ih =>
    intro prev out hchain h hprev
    cases hchain with
    | cons h1 h2 =>
      have hx : x < 2 ^ W := h x (by simp)
      have hdec := decode_varint (W := W) (((deltaList x xs).map varintBytes).flatten)
        hW (show x - prev < 2 ^ W by omega)
      rw [decode] at hdec
      obtain ⟨b, bs, hsplit⟩ : ∃ b bs,
          varintBytes (x - prev) ++ ((deltaList x xs).map varintBytes).flatten = b :: bs := by
        cases hvb : varintBytes (x - prev) with
        | nil => exact absurd hvb (varintBytes_ne_nil _)
        | cons hd tl => exact ⟨hd, tl ++ ((deltaList x xs).map varintBytes).flatten, by simp [hvb]⟩
      have hflat : ((deltaList prev (x :: xs)).map varintBytes).flatten = b :: bs := by
        rw [deltaList, List.map_cons, List.flatten_cons, hsplit]
      rw [hflat]
      rw [hsplit] at hdec
      have hsum : (prev + (x - prev)) % 2 ^ W = x := by
        have hpx : prev + (x - prev) = x := by omega
        rw [hpx]
        exact Nat.mod_eq_of_lt hx
      rw [deltaDecodeSliceLoop_step hdec, hsum,
        ih x (out ++ [x]) h2 (fun y hy => h y (by simp [hy])) hx]
      simp

/-- Any sorted list is a `≤`-chain from `0`. -/
theorem chain_zero_of_chain' {xs : List Nat} (h : List.Chain' (· ≤ ·) xs) :
    List.Chain (· ≤ ·) 0 xs := by
  cases xs with
  | nil => exact List.Chain.nil
  | cons x xs => exact List.Chain.cons (Nat.zero_le x) h

/-! ### General decode behaviour on arbitrary byte input -/

theorem lor_shift_mod {W s acc c : Nat} (hs : s < W) (hacc : acc < 2 ^ s) :
    acc ||| c <<< s % 2 ^ W = (acc + c * 2 ^ s) % 2 ^ W := by
  have hW : (2 : Nat) ^ W = 2 ^ (W - s) * 2 ^ s := by
    rw [← pow_add]
    congr 1
    omega
  have hsl : c <<< s = c * 2 ^ s := Nat.shiftLeft_eq c s
  have hmod : c * 2 ^ s % 2 ^ W = c % 2 ^ (W - s) * 2 ^ s := by
    rw [hW, Nat.mul_mod_mul_right]
  have hmlt : c % 2 ^ (W - s) < 2 ^ (W - s) :=
    Nat.mod_lt _ (Nat.pos_pow_of_pos _ (by omega))
  have hlt : acc + c % 2 ^ (W - s) * 2 ^ s < 2 ^ W := by
    rw [hW]
    have hp : 0 < 2 ^ s := Nat.pos_pow_of_pos _ (by omega)
    nlinarith
  have hsplit : c = 2 ^ (W - s) * (c / 2 ^ (W - s)) + c % 2 ^ (W - s) :=
    (Nat.div_add_mod c _).symm
  rw [hsl, hmod, lor_small (c % 2 ^ (W - s)) s hacc]
  conv_rhs => rw [hsplit]
  have hring : acc + (2 ^ (W - s) * (c / 2 ^ (W - s)) + c % 2 ^ (W - s)) * 2 ^ s
      = acc + c % 2 ^ (W - s) * 2 ^ s + c / 2 ^ (W - s) * 2 ^ W := by
    rw [hW]
    ring
  rw [hring, Nat.add_mul_mod_self_right, Nat.mod_eq_of_lt hlt]

theorem add_shift_mod_lt {W s acc c : Nat} (hacc : acc < 2 ^ s) (hc : c < 128) :
    (acc + c * 2 ^ s) % 2 ^ W < 2 ^ (s + 7) := by
  have h1 : (acc + c * 2 ^ s) % 2 ^ W ≤ acc + c * 2 ^ s := Nat.mod_le _ _
  have h2 : acc + c * 2 ^ s < 2 ^ (s + 7) := by
    rw [pow_add]
    have hp : 0 < 2 ^ s := Nat.pos_pow_of_pos _ (by omega)
    nlinarith
  omega

/-- Decode over an arbitrary run of continuation bytes followed by a
terminator: as long as every shift amount stays below `W`, the result is
the raw 7-bit-group value reduced modulo `2 ^ W`. -/
theorem decodeCore_raw {W : Nat} :
    ∀ (pre : List Nat) (t : Nat) (rest : List Nat) (i acc : Nat),
      (∀ b ∈ pre, ¬ b &&& 0x80 = 0) → t &&& 0x80 = 0 →
      7 * (i + pre.length) < W → acc < 2 ^ (7 * i) →
      decodeCore W acc i (pre ++ t :: rest) =
        Except.ok ((acc + rawValue (pre ++ [t]) * 2 ^ (7 * i)) % 2 ^ W, rest) := by
  intro pre
  induction pre with
  | nil =>
    intro t rest i acc _hpre ht hshift hacc
    have h2 : 7 * i % W = 7 * i := Nat.mod_eq_of_lt (by simp at hshift; omega)
    rw [List.nil_append, decodeCore]
    simp only [h2]
    rw [if_pos ht, lor_shift_mod (by simp at hshift; omega) hacc]
    simp [rawValue]
  | cons b pre ih =>
    intro t rest i acc hpre ht hshift hacc
    have hlen : (b :: pre).length = pre.length + 1 := rfl
    have hb : ¬ b &&& 0x80 = 0 := hpre b (by simp)
    have h2 : 7 * i % W = 7 * i := Nat.mod_eq_of_lt (by omega)
    have hc : b &&& 127 < 128 := by
      rw [and_127]
      exact Nat.mod_lt _ (by omega)
    rw [List.cons_append, decodeCore]
    simp only [h2]
    rw [if_neg hb, lor_shift_mod (by omega) hacc]
    have hacc' : (acc + (b &&& 127) * 2 ^ (7 * i)) % 2 ^ W < 2 ^ (7 * (i + 1)) := by
      have h3 := add_shift_mod_lt (W := W) hacc hc
      have h77 : 7 * (i + 1) = 7 * i + 7 := by omega
      rw [h77]
      exact h3
    rw [ih t rest (i + 1) _ (fun y hy => hpre y (by simp [hy])) ht (by omega) hacc']
    have hpow : (2 : Nat) ^ (7 * (i + 1)) = 2 ^ (7 * i) * 128 := by
      have h77 : 7 * (i + 1) = 7 * i + 7 := by omega
      rw [h77, pow_add]
      norm_num
    have hr : rawValue ((b :: pre) ++ [t]) = (b &&& 127) + 128 * rawValue (pre ++ [t]) := by
      rw [List.cons_append, rawValue]
    have hmods : ((acc + (b &&& 127) * 2 ^ (7 * i)) % 2 ^ W
          + rawValue (pre ++ [t]) * 2 ^ (7 * (i + 1))) % 2 ^ W
        = (acc + rawValue ((b :: pre) ++ [t]) * 2 ^ (7 * i)) % 2 ^ W := by
      rw [Nat.mod_add_mod, hpow, hr]
      congr 1
      ring
    rw [hmods]

/-- In the release-semantics embedding the decoder is total: every input
yields a value or `InvalidVarInt`. -/
theorem decodeCore_total {W : Nat} : ∀ (bytes : List Nat) (x i : Nat),
    (∃ v rest, decodeCore W x i bytes = Except.ok (v, rest)) ∨
    decodeCore W x i bytes = Except.error Error.InvalidVarInt := by
  intro bytes
  induction bytes with
  | nil =>
    intro x i
    right
    rw [decodeCore]
  | cons b bs ih =>
    intro x i
    rw [decodeCore]
    by_cases hb : b &&& 0x80 = 0
    · exact Or.inl ⟨_, _, by rw [if_pos hb]⟩
    · rw [if_neg hb]
      exact ih _ _

/-- If every byte has its continuation bit set, decode fails. -/
theorem decodeCore_all_cont {W : Nat} : ∀ (bytes : List Nat) (x i : Nat),
    (∀ b ∈ bytes, ¬ b &&& 0x80 = 0) →
    decodeCore W x i bytes = Except.error Error.InvalidVarInt := by
  intro bytes
  induction bytes with
  | nil =>
    intro x i _h
    rw [decodeCore]
  | cons b bs ih =>
    intro x i h
    rw [decodeCore, if_neg (h b (by simp))]
    exact ih _ _ (fun y hy => h y (by simp [hy]))

/-- Every byte of a proper prefix of a var-int encoding has its
continuation bit set. -/
theorem varintBytes_take_cont : ∀ (x k : Nat), k < encLen x →
    ∀ b ∈ (varintBytes x).take k, ¬ b &&& 0x80 = 0 := by
  intro x
  induction x using Nat.strong_induction_on with
  | _ x ih =>
    intro k hk b hb
    by_cases hx : x < 128
    · rw [encLen_small hx] at hk
      have : k = 0 := by omega
      subst this
      simp at hb
    · rw [varintBytes_large hx] at hb
      cases k with
      | zero => simp at hb
      | succ j =>
        rw [List.take_succ_cons] at hb
        rcases List.mem_cons.mp hb with h1 | h2
        · subst h1
          have := add_128_and_128 (Nat.mod_lt x (show 0 < 128 by omega))
          omega
        · rw [encLen_large hx] at hk
          exact ih (x / 128) (Nat.div_lt_self (by omega) (by omega)) j (by omega) b h2

/-! ### Minimality of the encoded length -/

theorem le_encLen : ∀ (k x : Nat), 128 ^ k ≤ x → k + 1 ≤ encLen x := by
  intro k
  induction k with
  | zero =>
    intro x _h
    exact encLen_pos x
  | succ k ih =>
    intro x h
    have hx : ¬ x < 128 := by
      have : (128 : Nat) ≤ 128 ^ (k + 1) := by
        calc (128 : Nat) = 128 ^ 1 := by norm_num
          _ ≤ 128 ^ (k + 1) := Nat.pow_le_pow_right (by omega) (by omega)
      omega
    have hdiv : 128 ^ k ≤ x / 128 := by
      rw [Nat.le_div_iff_mul_le (by omega)]
      calc 128 ^ k * 128 = 128 ^ (k + 1) := (pow_succ 128 k).symm
        _ ≤ x := h
    rw [encLen_large hx]
    have := ih _ hdiv
    omega

/-- The encoded length is exactly `max 1 ⌈bitlength(x)/7⌉`. -/
theorem encLen_eq_max (x : Nat) : encLen x = max 1 ((Nat.size x + 6) / 7) := by
  by_cases hx0 : x = 0
  · subst hx0
    rw [encLen_small (by omega)]
    simp [Nat.size_zero]
  · have hs : 1 ≤ Nat.size x := by
      by_contra hs0
      have h0 : Nat.size x ≤ 0 := by omega
      have := Nat.size_le.mp h0
      omega
    have hub : encLen x ≤ (Nat.size x + 6) / 7 := by
      have hk : 1 ≤ (Nat.size x + 6) / 7 := by omega
      have h7 : Nat.size x ≤ 7 * ((Nat.size x + 6) / 7) := by omega
      have hpow : (2 : Nat) ^ Nat.size x ≤ 128 ^ ((Nat.size x + 6) / 7) := by
        calc (2 : Nat) ^ Nat.size x ≤ 2 ^ (7 * ((Nat.size x + 6) / 7)) :=
              Nat.pow_le_pow_right (by omega) h7
          _ = 128 ^ ((Nat.size x + 6) / 7) := by
              rw [show (128 : Nat) = 2 ^ 7 by norm_num, ← pow_mul]
      exact encLen_le_of_lt_pow _ x hk (lt_of_lt_of_le (Nat.lt_size_self x) hpow)
    have hlb : (Nat.size x + 6) / 7 ≤ encLen x := by
      by_cases hm : (Nat.size x + 6) / 7 ≤ 1
      · have := encLen_pos x
        omega
      · have h7 : 7 * ((Nat.size x + 6) / 7 - 1) ≤ Nat.size x - 1 := by omega
        have hlow : 2 ^ (Nat.size x - 1) ≤ x := by
          by_contra hlow
          have hlow2 : x < 2 ^ (Nat.size x - 1) := by omega
          have := Nat.size_le.mpr hlow2
          omega
        have hple : 128 ^ ((Nat.size x + 6) / 7 - 1) ≤ x := by
          calc (128 : Nat) ^ ((Nat.size x + 6) / 7 - 1)
              = 2 ^ (7 * ((Nat.size x + 6) / 7 - 1)) := by
                rw [show (128 : Nat) = 2 ^ 7 by norm_num, ← pow_mul]
            _ ≤ 2 ^ (Nat.size x - 1) := Nat.pow_le_pow_right (by omega) h7
            _ ≤ x := hlow
        have := le_encLen _ _ hple
        omega
    omega

/-! ### The membership scan -/

theorem containsLoop_nil {W t acc : Nat} : containsLoop W t acc [] = false := by
  rw [containsLoop]

theorem runningSums_nil {W acc : Nat} : runningSums W acc [] = [] := by
  rw [runningSums]

theorem containsLoop_found {W t acc b d : Nat} {bs rest : List Nat}
    (h : decodeCore W 0 0 (b :: bs) = Except.ok (d, rest))
    (he : (acc + d) % 2 ^ W = t) :
    containsLoop W t acc (b :: bs) = true := by
  rw [containsLoop]
  split
  · rename_i d' rest' hmatch
    rw [h] at hmatch
    injection hmatch with hm
    injection hm with h1 h2
    rw [← h1, if_pos he]
  · rename_i e hmatch
    rw [h] at hmatch
    exact absurd hmatch (by simp)

theorem containsLoop_notfound {W t acc b d : Nat} {bs rest : List Nat}
    (h : decodeCore W 0 0 (b :: bs) = Except.ok (d, rest))
    (he : ¬ (acc + d) % 2 ^ W = t) :
    containsLoop W t acc (b :: bs) = containsLoop W t ((acc + d) % 2 ^ W) rest := by
  rw [containsLoop]
  split
  · rename_i d' rest' hmatch
    rw [h] at hmatch
    injection hmatch with hm
    injection hm with h1 h2
    rw [← h1, ← h2, if_neg he]
  · rename_i e hmatch
    rw [h] at hmatch
    exact absurd hmatch (by simp)

theorem containsLoop_err {W t acc b : Nat} {bs : List Nat} {e : Error}
    (h : decodeCore W 0 0 (b :: bs) = Except.error e) :
    containsLoop W t acc (b :: bs) = false := by
  rw [containsLoop]
  split
  · rename_i d' rest' hmatch
    rw [h] at hmatch
    exact absurd hmatch (by simp)
  · rfl

theorem runningSums_step {W acc b d : Nat} {bs rest : List Nat}
    (h : decodeCore W 0 0 (b :: bs) = Except.ok (d, rest)) :
    runningSums W acc (b :: bs) =
      ((acc + d) % 2 ^ W) :: runningSums W ((acc + d) % 2 ^ W) rest := by
  rw [runningSums]
  split
  · rename_i d' rest' hmatch
    rw [h] at hmatch
    injection hmatch with hm
    injection hm with h1 h2
    rw [← h1, ← h2]
  · rename_i e hmatch
    rw [h] at hmatch
    exact absurd hmatch (by simp)

theorem runningSums_err {W acc b : Nat} {bs : List Nat} {e : Error}
    (h : decodeCore W 0 0 (b :: bs) = Except.error e) :
    runningSums W acc (b :: bs) = [] := by
  rw [runningSums]
  split
  · rename_i d' rest' hmatch
    rw [h] at hmatch
    exact absurd hmatch (by simp)
  · rfl

theorem deltaDecodeSliceLoop_err {W b prev : Nat} {out bs : List Nat} {e : Error}
    (h : decodeCore W 0 0 (b :: bs) = Except.error e) :
    deltaDecodeSliceLoop W out prev (b :: bs) = Except.error e := by
  rw [deltaDecodeSliceLoop]
  split
  · rename_i v' rest' hmatch
    rw [h] at hmatch
    exact absurd hmatch (by simp)
  · rename_i e' hmatch
    rw [h] at hmatch
    injection hmatch with hm
    rw [hm]

/-- The scan reports `true` exactly when the target occurs among the
running sums. -/
theorem containsLoop_iff_mem {W t : Nat} :
    ∀ (n : Nat) (bytes : List Nat), bytes.length ≤ n → ∀ acc,
      (containsLoop W t acc bytes = true ↔ t ∈ runningSums W acc bytes) := by
  intro n
  induction n with
  | zero =>
    intro bytes hlen acc
    have hb : bytes = [] := by
      cases bytes
      · rfl
      · simp at hlen
    subst hb
    rw [containsLoop_nil, runningSums_nil]
    simp
  | succ n ih =>
    intro bytes hlen acc
    cases bytes with
    | nil =>
      rw [containsLoop_nil, runningSums_nil]
      simp
    | cons b bs =>
      cases hdec : decodeCore W 0 0 (b :: bs) with
      | ok vr =>
        obtain ⟨d, rest⟩ := vr
        have hlt := decodeCore_ok_length hdec
        by_cases he : (acc + d) % 2 ^ W = t
        · rw [containsLoop_found hdec he, runningSums_step hdec]
          simp [he]
        · rw [containsLoop_notfound hdec he, runningSums_step hdec]
          have hrest : rest.length ≤ n := by
            simp only [List.length_cons] at hlen hlt
            omega
          rw [ih rest hrest ((acc + d) % 2 ^ W)]
          constructor
          · intro hm
            exact List.mem_cons_of_mem _ hm
          · intro hm
            rcases List.mem_cons.mp hm with h1 | h1
            · exact absurd h1.symm he
            · exact h1
      | error e =>
        rw [containsLoop_err hdec, runningSums_err hdec]
        simp

/-- When delta decode succeeds, its output is exactly the running sums. -/
theorem deltaDecodeSliceLoop_runningSums {W : Nat} :
    ∀ (n : Nat) (bytes : List Nat), bytes.length ≤ n →
      ∀ (out : List Nat) (acc : Nat) (res : List Nat),
        deltaDecodeSliceLoop W out acc bytes = Except.ok res →
        res = out ++ runningSums W acc bytes := by
  intro n
  induction n with
  | zero =>
    intro bytes hlen out acc res h
    have hb : bytes = [] := by
      cases bytes
      · rfl
      · simp at hlen
    subst hb
    rw [deltaDecodeSliceLoop] at h
    injection h with h2
    rw [runningSums_nil, ← h2]
    simp
  | succ n ih =>
    intro bytes hlen out acc res h
    cases bytes with
    | nil =>
      rw [deltaDecodeSliceLoop] at h
      injection h with h2
      rw [runningSums_nil, ← h2]
      simp
    | cons b bs =>
      cases hdec : decodeCore W 0 0 (b :: bs) with
      | ok vr =>
        obtain ⟨d, rest⟩ := vr
        have hlt := decodeCore_ok_length hdec
        rw [deltaDecodeSliceLoop_step hdec] at h
        have hrest : rest.length ≤ n := by
          simp only [List.length_cons] at hlen hlt
          omega
        have := ih rest hrest _ _ _ h
        rw [runningSums_step hdec, this]
        simp
      | error e =>
        rw [deltaDecodeSliceLoop_err hdec] at h
        exact absurd h (by simp)

/-! ### Concrete-evaluation helpers -/

theorem encLen_300 : encLen 300 = 2 := by
  rw [encLen_large (by norm_num), show (300 : Nat) / 128 = 2 from by norm_num,
    encLen_small (by norm_num)]

/-! ## Claim theorems -/

/-- C1: for every width `W ∈ {16,32,64,128}` and every width-`W` value `x`,
encoding `x` into a sufficiently large buffer (at least `⌈W/7⌉` cells)
succeeds; the written prefix of the buffer is exactly `varintBytes x`, and
decoding those written bytes succeeds and returns `(x, [])` — the value and
an empty remainder. -/
theorem C1_roundtrip_single (W x : Nat) (buf : List Nat) (hW : Widths W)
    (hx : x < 2 ^ W) (hbuf : (W + 6) / 7 ≤ buf.length) :
    encode x buf = (Except.ok (encLen x), varintBytes x ++ buf.drop (encLen x)) ∧
    (varintBytes x ++ buf.drop (encLen x)).take (encLen x) = varintBytes x ∧
    decode W (varintBytes x) = Except.ok (x, []) := by
  obtain ⟨hW1, hW2⟩ := widths_bounds hW
  have hle : encLen x ≤ buf.length := le_trans (encLen_le_width hW1 hx) hbuf
  refine ⟨encode_ok hle, List.take_left' (varintBytes_length x), ?_⟩
  have h := decode_varint (W := W) [] hW1 hx
  simpa using h

theorem C1_roundtrip_single_witness :
    encode 300 (List.replicate 19 0) =
      (Except.ok (encLen 300), varintBytes 300 ++ (List.replicate 19 0).drop (encLen 300)) ∧
    (varintBytes 300 ++ (List.replicate 19 0).drop (encLen 300)).take (encLen 300) =
      varintBytes 300 ∧
    decode 16 (varintBytes 300) = Except.ok (300, []) :=
  C1_roundtrip_single 16 300 (List.replicate 19 0) (Or.inl rfl) (by decide) (by decide)

/-- C3: for every width `W ∈ {16,32,64,128}` and every sequence of width-`W`
values (in any order), bulk encoding into a faultless growable sink
succeeds, producing the concatenation of the per-value encodings, and bulk
decoding those bytes succeeds and returns exactly the input sequence in
order. -/
theorem C3_roundtrip_bulk (W : Nat) (xs : List Nat) (hW : Widths W)
    (hx : ∀ x ∈ xs, x < 2 ^ W) :
    encode_slice xs = Except.ok ((xs.map encLen).sum, (xs.map varintBytes).flatten) ∧
    decode_slice W ((xs.map varintBytes).flatten) = Except.ok xs := by
  obtain ⟨hW1, hW2⟩ := widths_bounds hW
  constructor
  · have h24 : ∀ x ∈ xs, encLen x ≤ 24 := fun x hxm => encLen_le_24 hW1 hW2 (hx x hxm)
    have h := encodeSliceLoop_ok xs (List.replicate 24 0) 0 [] (by simp) h24
    simpa [encode_slice] using h
  · have h := decodeSliceLoop_varints hW1 xs [] hx
    simpa [decode_slice] using h

theorem C3_roundtrip_bulk_witness :
    encode_slice [5, 10, 160] =
      Except.ok ((([5, 10, 160] : List Nat).map encLen).sum,
        (([5, 10, 160] : List Nat).map varintBytes).flatten) ∧
    decode_slice 32 ((([5, 10, 160] : List Nat).map varintBytes).flatten) =
      Except.ok [5, 10, 160] :=
  C3_roundtrip_bulk 32 [5, 10, 160] (Or.inr (Or.inl rfl)) (by decide)

/-- C4: a successful single-value encode of a width-`W` value `x` writes
exactly `max 1 ⌈bitlength(x)/7⌉` bytes, never more than `⌈W/7⌉`, and for
`x = 0` writes the single byte `0x00`. -/
theorem C4_minimal_length (W x n : Nat) (out : List Nat) (hW : Widths W)
    (hx : x < 2 ^ W) (h : (encode x out).1 = Except.ok n) :
    n = max 1 ((Nat.size x + 6) / 7) ∧ n ≤ (W + 6) / 7 ∧
    (x = 0 → n = 1 ∧ (encode x out).2.take n = [0]) := by
  obtain ⟨hW1, hW2⟩ := widths_bounds hW
  by_cases hfit : encLen x ≤ out.length
  · have hok := encode_ok hfit
    have hn : encLen x = n := by
      rw [hok] at h
      injection h with h1
    refine ⟨?_, ?_, ?_⟩
    · rw [← hn, encLen_eq_max]
    · rw [← hn]
      exact encLen_le_width hW1 hx
    · intro hx0
      subst hx0
      have h1 : encLen 0 = 1 := encLen_small (by omega)
      refine ⟨by omega, ?_⟩
      rw [hok, ← hn, h1, varintBytes_small (by omega)]
      rfl
  · have herr := @encode_err x out (by omega)
    rw [herr] at h
    exact absurd h (by simp)

theorem C4_minimal_length_witness :
    1 = max 1 ((Nat.size 0 + 6) / 7) ∧ 1 ≤ (16 + 6) / 7 ∧
    ((0 : Nat) = 0 → 1 = 1 ∧ (encode 0 [0]).2.take 1 = [0]) :=
  C4_minimal_length 16 0 1 [0] (Or.inl rfl) (by decide) (by rfl)

/-- C7: decoding any proper prefix of a var-int encoding that stops short
of the terminating byte — including the empty byte sequence — fails with
`InvalidVarInt`. -/
theorem C7_truncation_fails (W x k : Nat) (hW : Widths W) (hk : k < encLen x) :
    decode W ((varintBytes x).take k) = Except.error Error.InvalidVarInt := by
  rw [decode]
  exact decodeCore_all_cont _ _ _ (varintBytes_take_cont x k hk)

theorem C7_truncation_fails_witness :
    decode 16 ((varintBytes 300).take 1) = Except.error Error.InvalidVarInt :=
  C7_truncation_fails 16 300 1 (Or.inl rfl) (by simp [encLen_300])

/-- C8: a single-value encode fails with `BufferTooSmall` exactly when the
buffer is shorter than the encoded length of the value; in particular
encoding 300 into a 1-byte buffer fails while encoding 46 into a 1-byte
buffer succeeds, writing exactly the byte `0x2e`. -/
theorem C8_buffer_too_small (W x : Nat) (buf : List Nat) (hW : Widths W)
    (hx : x < 2 ^ W) :
    ((encode x buf).1 = Except.error Error.BufferTooSmall ↔ buf.length < encLen x) ∧
    (encode 300 [0]).1 = Except.error Error.BufferTooSmall ∧
    encode 46 [0] = (Except.ok 1, [0x2e]) := by
  refine ⟨⟨?_, fun hlt => encode_err hlt⟩, by rfl, by rfl⟩
  intro h
  by_contra hno
  rw [encode_ok (by omega)] at h
  exact absurd h (by simp)

theorem C8_buffer_too_small_witness :
    ((encode 0 []).1 = Except.error Error.BufferTooSmall ↔ ([] : List Nat).length < encLen 0) ∧
    (encode 300 [0]).1 = Except.error Error.BufferTooSmall ∧
    encode 46 [0] = (Except.ok 1, [0x2e]) :=
  C8_buffer_too_small 16 0 [] (Or.inl rfl) (by decide)

/-- C10: a successful single-value encode returning byte count `n` leaves
every buffer cell at index `n` or beyond exactly as it was before the
call. -/
theorem C10_frame (W x n : Nat) (buf buf' : List Nat) (hW : Widths W) (hx : x < 2 ^ W)
    (h : encode x buf = (Except.ok n, buf')) :
    buf'.drop n = buf.drop n := by
  by_cases hfit : encLen x ≤ buf.length
  · have hok := encode_ok hfit
    rw [hok] at h
    injection h with h1 h2
    injection h1 with h1
    rw [← h2, ← h1]
    exact List.drop_left' (varintBytes_length x)
  · have herr := @encode_err x buf (by omega)
    rw [h] at herr
    exact absurd herr (by simp)

theorem C10_frame_witness : ([5, 9] : List Nat).drop 1 = ([9, 9] : List Nat).drop 1 :=
  C10_frame 16 5 1 [9, 9] [5, 9] (Or.inl rfl) (by decide) (by rfl)

/-- C2: for every width `W ∈ {16,32,64,128}` and every non-decreasing
sequence of width-`W` values, delta encoding into a faultless growable sink
succeeds, producing the concatenated var-int encodings of the successive
differences, and delta decoding those bytes succeeds and returns exactly
the original sequence. -/
theorem C2_roundtrip_delta (W : Nat) (xs : List Nat) (hW : Widths W)
    (hsorted : List.Chain' (· ≤ ·) xs) (hx : ∀ x ∈ xs, x < 2 ^ W) :
    delta_encode_slice W xs =
      Except.ok (((deltaList 0 xs).map encLen).sum,
        ((deltaList 0 xs).map varintBytes).flatten) ∧
    delta_decode_slice W (((deltaList 0 xs).map varintBytes).flatten) = Except.ok xs := by
  obtain ⟨hW1, hW2⟩ := widths_bounds hW
  have hchain := chain_zero_of_chain' hsorted
  constructor
  · have h := deltaEncodeSliceLoop_ok hW1 hW2 xs 0 (List.replicate 24 0) 0 []
      (by simp) hchain hx
    simpa [delta_encode_slice] using h
  · have h := deltaDecodeSliceLoop_varints hW1 xs 0 [] hchain hx
      (Nat.pos_pow_of_pos _ (by omega))
    simpa [delta_decode_slice] using h

theorem C2_roundtrip_delta_witness :
    delta_encode_slice 32 [4, 8, 15, 16, 23, 42] =
      Except.ok (((deltaList 0 [4, 8, 15, 16, 23, 42]).map encLen).sum,
        ((deltaList 0 [4, 8, 15, 16, 23, 42]).map varintBytes).flatten) ∧
    delta_decode_slice 32 (((deltaList 0 [4, 8, 15, 16, 23, 42]).map varintBytes).flatten) =
      Except.ok [4, 8, 15, 16, 23, 42] :=
  C2_roundtrip_delta 32 [4, 8, 15, 16, 23, 42] (Or.inr (Or.inl rfl))
    (by simp [List.chain'_cons]) (by decide)

/-- C9: with a faultless growable sink, bulk encoding of in-range values
never fails for any input sequence whatsoever, and delta encoding never
fails under the non-decreasing precondition (scoped to the delta conjunct
only) — in particular `BufferTooSmall` never occurs, since the encoded
length of any supported value is at most 19 bytes and the scratch buffer
holds 24 — and both return the total number of bytes written together with
the sink contents. -/
theorem C9_growable_sink_always_ok (W : Nat) (xs : List Nat) (hW : Widths W)
    (hx : ∀ x ∈ xs, x < 2 ^ W) :
    encode_slice xs = Except.ok ((xs.map encLen).sum, (xs.map varintBytes).flatten) ∧
    (List.Chain' (· ≤ ·) xs →
      delta_encode_slice W xs =
        Except.ok (((deltaList 0 xs).map encLen).sum,
          ((deltaList 0 xs).map varintBytes).flatten)) := by
  obtain ⟨hW1, hW2⟩ := widths_bounds hW
  constructor
  · have h24 : ∀ x ∈ xs, encLen x ≤ 24 := fun x hxm => encLen_le_24 hW1 hW2 (hx x hxm)
    have h := encodeSliceLoop_ok xs (List.replicate 24 0) 0 [] (by simp) h24
    simpa [encode_slice] using h
  · intro hsorted
    have h := deltaEncodeSliceLoop_ok hW1 hW2 xs 0 (List.replicate 24 0) 0 []
      (by simp) (chain_zero_of_chain' hsorted) hx
    simpa [delta_encode_slice] using h

theorem C9_growable_sink_always_ok_witness :
    (encode_slice [300, 2, 1] =
      Except.ok ((([300, 2, 1] : List Nat).map encLen).sum,
        (([300, 2, 1] : List Nat).map varintBytes).flatten) ∧
    (List.Chain' (· ≤ ·) [300, 2, 1] →
      delta_encode_slice 16 [300, 2, 1] =
        Except.ok (((deltaList 0 [300, 2, 1]).map encLen).sum,
          ((deltaList 0 [300, 2, 1]).map varintBytes).flatten))) ∧
    (encode_slice [1, 2, 300] =
      Except.ok ((([1, 2, 300] : List Nat).map encLen).sum,
        (([1, 2, 300] : List Nat).map varintBytes).flatten) ∧
    (List.Chain' (· ≤ ·) [1, 2, 300] →
      delta_encode_slice 16 [1, 2, 300] =
        Except.ok (((deltaList 0 [1, 2, 300]).map encLen).sum,
          ((deltaList 0 [1, 2, 300]).map varintBytes).flatten))) :=
  ⟨C9_growable_sink_always_ok 16 [300, 2, 1] (Or.inl rfl) (by decide),
   C9_growable_sink_always_ok 16 [1, 2, 300] (Or.inl rfl) (by decide)⟩

/-- C5 counterexample: `[0x80,0x80,0x80,0x01]` is the valid 4-byte u32
encoding of `2^21`; the value "consistent with width 16" is
`2^21 % 2^16 = 0`, but `decode_u16` returns 32: the release-build masked
shift plants the fourth byte's payload at bit `21 % 16 = 5` (a debug build
panics on the oversized shift amount instead of returning at all). -/
theorem C5_cex_overlong_misdecoded :
    decode_u16 [0x80, 0x80, 0x80, 0x01] = Except.ok (32, []) ∧
    rawValue [0x80, 0x80, 0x80, 0x01] % 2 ^ 16 = 0 ∧ (32 : Nat) ≠ 0 :=
  ⟨by rfl, by decide, by decide⟩

/-- C5 amended: in the release-semantics embedding the decoder is total —
every input yields a value with the unconsumed remainder or fails with
`InvalidVarInt`, never any other outcome — and any value whose encoding
spans at most `⌈W/7⌉` bytes (a run of continuation bytes followed by one
terminator) is decoded to its raw 7-bit-group value reduced modulo `2 ^ W`;
beyond `⌈W/7⌉` bytes the result is implementation-defined (masked shift
amounts in release builds, a panic in debug builds). -/
theorem C5_amended_decode (W t : Nat) (bytes pre rest : List Nat) (hW : Widths W)
    (hpre : ∀ b ∈ pre, ¬ b &&& 0x80 = 0) (ht : t &&& 0x80 = 0)
    (hlen : pre.length + 1 ≤ (W + 6) / 7) :
    decode W bytes ≠ Except.error Error.BufferTooSmall ∧
    decode W bytes ≠ Except.error Error.IoError ∧
    decode W (pre ++ t :: rest) = Except.ok (rawValue (pre ++ [t]) % 2 ^ W, rest) := by
  obtain ⟨hW1, hW2⟩ := widths_bounds hW
  have htot := decodeCore_total (W := W) bytes 0 0
  refine ⟨?_, ?_, ?_⟩
  · rcases htot with ⟨v, r, hok⟩ | herr
    · rw [decode, hok]
      simp
    · rw [decode, herr]
      simp
  · rcases htot with ⟨v, r, hok⟩ | herr
    · rw [decode, hok]
      simp
    · rw [decode, herr]
      simp
  · have h7 : 7 * ((W + 6) / 7) ≤ W + 6 := by omega
    have hshift : 7 * (0 + pre.length) < W := by omega
    have h := decodeCore_raw pre t rest 0 0 hpre ht hshift (by simp)
    simpa [decode] using h

theorem C5_amended_decode_witness :
    decode 16 [] ≠ Except.error Error.BufferTooSmall ∧
    decode 16 [] ≠ Except.error Error.IoError ∧
    decode 16 ([0x80] ++ 1 :: []) = Except.ok (rawValue ([0x80] ++ [1]) % 2 ^ 16, []) :=
  C5_amended_decode 16 1 [] [0x80] [] (Or.inl rfl) (by decide) (by decide) (by decide)

/-- C6: the spec-modelled streaming membership scan returns `true` exactly
when the running sum of decoded deltas equals the target at some point
(`runningSums` is that stream of sums, cut off at exhaustion or at a decode
error, so without a match the scan returns `false`), and the stream equals
the delta-decoded sequence whenever delta decode succeeds; for the bytes
produced by delta-encoding `[4,8,15,16,23,42]`, `contains 8` is true and
`contains 9` is false. -/
theorem C6_contains_membership (W t : Nat) (bytes ys : List Nat) (hW : Widths W) :
    (contains W t bytes = true ↔ t ∈ runningSums W 0 bytes) ∧
    (delta_decode_slice W bytes = Except.ok ys → ys = runningSums W 0 bytes) ∧
    delta_encode_u32_slice [4, 8, 15, 16, 23, 42] = Except.ok (6, [4, 4, 7, 1, 7, 19]) ∧
    contains 32 8 [4, 4, 7, 1, 7, 19] = true ∧
    contains 32 9 [4, 4, 7, 1, 7, 19] = false := by
  refine ⟨?_, ?_, ?_, ?_, ?_⟩
  · exact containsLoop_iff_mem bytes.length bytes (le_refl _) 0
  · intro h
    have h2 := deltaDecodeSliceLoop_runningSums bytes.length bytes (le_refl _) [] 0 ys h
    simpa using h2
  · have hchain : List.Chain (· ≤ ·) 0 [4, 8, 15, 16, 23, 42] := by
      simp [List.chain_cons]
    have h := deltaEncodeSliceLoop_ok (W := 32) (by omega) (by omega)
      [4, 8, 15, 16, 23, 42] 0 (List.replicate 24 0) 0 [] (by simp) hchain (by decide)
    have hdl : deltaList 0 [4, 8, 15, 16, 23, 42] = [4, 4, 7, 1, 7, 19] := by decide
    rw [hdl] at h
    have he4 : encLen 4 = 1 := encLen_small (by norm_num)
    have he7 : encLen 7 = 1 := encLen_small (by norm_num)
    have he1 : encLen 1 = 1 := encLen_small (by norm_num)
    have he19 : encLen 19 = 1 := encLen_small (by norm_num)
    have hv4 : varintBytes 4 = [4] := varintBytes_small (by norm_num)
    have hv7 : varintBytes 7 = [7] := varintBytes_small (by norm_num)
    have hv1 : varintBytes 1 = [1] := varintBytes_small (by norm_num)
    have hv19 : varintBytes 19 = [19] := varintBytes_small (by norm_num)
    simp only [List.map_cons, List.map_nil, he4, he7, he1, he19, hv4, hv7, hv1, hv19,
      List.flatten_cons, List.flatten_nil, List.sum_cons, List.sum_nil] at h
    simp only [delta_encode_u32_slice, delta_encode_slice]
    rw [h]
    norm_num
  · have s1 : decodeCore 32 0 0 [4, 4, 7, 1, 7, 19] = Except.ok (4, [4, 7, 1, 7, 19]) := by rfl
    have s2 : decodeCore 32 0 0 [4, 7, 1, 7, 19] = Except.ok (4, [7, 1, 7, 19]) := by rfl
    show containsLoop 32 8 0 [4, 4, 7, 1, 7, 19] = true
    rw [containsLoop_notfound s1 (by decide)]
    exact containsLoop_found s2 (by decide)
  · have s1 : decodeCore 32 0 0 [4, 4, 7, 1, 7, 19] = Except.ok (4, [4, 7, 1, 7, 19]) := by rfl
    have s2 : decodeCore 32 0 0 [4, 7, 1, 7, 19] = Except.ok (4, [7, 1, 7, 19]) := by rfl
    have s3 : decodeCore 32 0 0 [7, 1, 7, 19] = Except.ok (7, [1, 7, 19]) := by rfl
    have s4 : decodeCore 32 0 0 [1, 7, 19] = Except.ok (1, [7, 19]) := by rfl
    have s5 : decodeCore 32 0 0 [7, 19] = Except.ok (7, [19]) := by rfl
    have s6 : decodeCore 32 0 0 [19] = Except.ok (19, []) := by rfl
    show containsLoop 32 9 0 [4, 4, 7, 1, 7, 19] = false
    rw [containsLoop_notfound s1 (by decide), containsLoop_notfound s2 (by decide),
      containsLoop_notfound s3 (by decide), containsLoop_notfound s4 (by decide),
      containsLoop_notfound s5 (by decide), containsLoop_notfound s6 (by decide)]
    exact containsLoop_nil

theorem C6_contains_membership_witness :
    (contains 32 9 [] = true ↔ 9 ∈ runningSums 32 0 []) ∧
    (delta_decode_slice 32 [] = Except.ok [] → ([] : List Nat) = runningSums 32 0 []) ∧
    delta_encode_u32_slice [4, 8, 15, 16, 23, 42] = Except.ok (6, [4, 4, 7, 1, 7, 19]) ∧
    contains 32 8 [4, 4, 7, 1, 7, 19] = true ∧
    contains 32 9 [4, 4, 7, 1, 7, 19] = false :=
  C6_contains_membership 32 9 [] [] (Or.inr (Or.inl rfl))

end Vardel
